import Mathlib

/-!
Verification of HomeGPT's event-ingestion, debounced-trigger, and
history-compression pipeline (`src/homegpt/api/main.py`), shallowly embedded.

Modelling conventions:
* Python `str` is modelled as `Text := List Char` (Python `len` counts code
  points, matching `List.length`).
* `str.splitlines` is modelled on the `'\n'` separator only (the blocks the
  pipeline assembles use `'\n'` exclusively).
* Python floats (timestamps in seconds, sensor values, scores) are modelled
  as exact rationals `ℚ`.
* Python's stable `list.sort(key=...)` is modelled by a stable insertion
  sort, which produces the same output as any stable sort for the same key.
-/

namespace HomeGPT

attribute [local semireducible] Rat.add Rat.mul Rat.inv Rat.sub Rat.ofScientific

/-- Python strings viewed as lists of code points. -/
abbrev Text := List Char

/-- Python `\s` on the characters that can occur inside a single line. -/
def isPySpace (c : Char) : Bool :=
  c = ' ' ∨ c = '\t' ∨ c = '\n' ∨ c = '\r' ∨ c = '\x0b' ∨ c = '\x0c'

/-- Model of `str.splitlines` restricted to the `'\n'` separator: no trailing empty
segment is produced for a trailing newline, and `"" → []`. -/
def splitlines : Text → List Text
  | [] => []
  | c :: cs =>
    if c = '\n' then [] :: splitlines cs
    else
      match splitlines cs with
      | [] => [[c]]
      | l :: ls => (c :: l) :: ls

/-- Model of `"\n".join(...)` on line lists. -/
def joinLines : List Text → Text
  | [] => []
  | [l] => l
  | l :: l' :: ls => l ++ '\n' :: joinLines (l' :: ls)

/-- Python `str.lower` (ASCII-adequate for the patterns used here). -/
def lowerText (t : Text) : Text := t.map Char.toLower

/-- Python `str.strip()` (both ends). -/
def stripText (t : Text) : Text :=
  ((t.dropWhile isPySpace).reverse.dropWhile isPySpace).reverse

/-- Python `str.lstrip()`. -/
def lstripText (t : Text) : Text := t.dropWhile isPySpace

/-- Python `str.rstrip()`. -/
def rstripText (t : Text) : Text := (t.reverse.dropWhile isPySpace).reverse

/-! ## Prompt Compactor (`strip_noise`, `clamp_chars`, `compose_user_prompt`) -/

def TOPO_MAX_CHARS : Nat := 4000
def STATE_MAX_CHARS : Nat := 6000
def HISTORY_MAX_CHARS : Nat := 9000
def EVENTS_MAX_CHARS : Nat := 3000
def TOTAL_MAX_CHARS : Nat := 26000
def CONTEXT_MAX_CHARS : Nat := 2000

/-- Decides whether a suffix of the line matches `: \d+ ` (used by the
`Home Assistant .*: \d+ .*` alternative of `_NOISE_LINES`). -/
def colonNumAt (t : Text) : Bool :=
  List.isPrefixOf [':', ' '] t ∧
    (let r := t.drop 2
     ¬ r.takeWhile Char.isDigit = [] ∧ (r.dropWhile Char.isDigit).headI = ' ')

/-- Helper: `l` begins with the literal `p`. -/
def startsWith (p : Text) (t : Text) : Bool := p.isPrefixOf t

/-- Helper: `p` occurs as a contiguous substring of `t`. -/
def containsSub (p : Text) (t : Text) : Bool := t.tails.any (startsWith p)

/-- The `_NOISE_LINES` regular expression
`^(\s*(SMARTi Dashboard.*|SMARTi Has .*|category_\d+_.*:|available_power_sensors_part\d+:|Home Assistant .*: \d+ .*|Vetle's device Climate React:.*|Average .*: unavailable.*|.*Missing Title:.*|.*Missing Subtitle:.*))\s*$`
(with `re.IGNORECASE`, matched by `re.match`) decided on a single line. -/
def noiseLine (line : Text) : Bool :=
  let t := lowerText (lstripText line)
  startsWith "SMARTi Dashboard".toLower.data t ∨
  startsWith "SMARTi Has ".toLower.data t ∨
  (startsWith "category_".data t ∧
    (let r := t.drop 9
     ¬ r.takeWhile Char.isDigit = [] ∧
       (r.dropWhile Char.isDigit).headI = '_' ∧
       (rstripText t).getLastI = ':')) ∨
  (startsWith "available_power_sensors_part".data t ∧
    (let r := t.drop 28
     ¬ r.takeWhile Char.isDigit = [] ∧
       (let r2 := r.dropWhile Char.isDigit
        r2.headI = ':' ∧ (r2.drop 1).all isPySpace))) ∨
  (startsWith "home assistant ".data t ∧ (t.drop 15).tails.any colonNumAt) ∨
  startsWith "vetle's device climate react:".data t ∨
  (startsWith "average ".data t ∧ t.tails.any (startsWith ": unavailable".data)) ∨
  containsSub "missing title:".data t ∨
  containsSub "missing subtitle:".data t

/-- Embedding of `strip_noise`: drop blank lines and `_NOISE_LINES` matches from a block. -/
def strip_noise (t : Text) : Text :=
  joinLines ((splitlines t).filter (fun l => ¬ l.all isPySpace ∧ ¬ noiseLine l))

/-- The `"… [truncated]"` marker appended by `clamp_chars` (13 code points). -/
def TRUNC_MARKER : Text := "… [truncated]".data

/-- The line-accumulation loop of `clamp_chars`: keep whole lines while
`used + len(line) + 1` stays within the budget, stop at the first overflow. -/
def clampLoop (maxChars : Nat) : List Text → Nat → List Text
  | [], _ => []
  | l :: ls, used =>
    if used + (l.length + 1) > maxChars then []
    else l :: clampLoop maxChars ls (used + (l.length + 1))

/-- Embedding of `clamp_chars`: return the text unchanged when within budget, otherwise
keep whole lines within the budget and append the truncation marker. -/
def clamp_chars (t : Text) (maxChars : Nat) : Text :=
  if t.length ≤ maxChars then t
  else joinLines (clampLoop maxChars (splitlines t) 0 ++ [TRUNC_MARKER])

/-- The fixed header of `compose_user_prompt`. -/
def promptHeader (lang : Text) : Text :=
  "Language: ".data ++ lang ++ ".\n".data ++
  "Use CURRENT STATE as ground truth. Be concise and actionable.\n".data ++
  "If USER CONTEXT MEMOS conflict with weak/ambiguous signals, prefer the memos.\n\n".data

/-- Model of `"sep".join(parts)`. -/
def joinStr (sep : Text) : List Text → Text
  | [] => []
  | [l] => l
  | l :: l' :: ls => l ++ sep ++ joinStr sep (l' :: ls)

/-- The fully assembled prompt just before the final whole-prompt clamp
(the `header + body` expression of `compose_user_prompt`). -/
def promptFull (lang topo state_block history_block events_block context_block : Text) : Text :=
  let topo := clamp_chars (strip_noise topo) TOPO_MAX_CHARS
  let stateB := clamp_chars (strip_noise state_block) STATE_MAX_CHARS
  let histB := clamp_chars history_block HISTORY_MAX_CHARS
  let evB := if events_block ≠ [] then clamp_chars events_block EVENTS_MAX_CHARS else []
  let cxB := if context_block ≠ [] then clamp_chars context_block CONTEXT_MAX_CHARS else []
  let body_parts :=
    (if cxB ≠ [] then ["USER CONTEXT MEMOS (from prior feedback):\n".data ++ cxB] else []) ++
    [topo, stateB, histB] ++
    (if evB ≠ [] then ["EVENTS:\n".data ++ evB] else [])
  promptHeader lang ++ joinStr "\n\n".data body_parts

/-- Embedding of `compose_user_prompt` (the unused `hours` parameter of the source is kept). -/
def compose_user_prompt (lang : Text) (hours : Option Int)
    (topo state_block history_block events_block context_block : Text) : Text :=
  clamp_chars (promptFull lang topo state_block history_block events_block context_block)
    TOTAL_MAX_CHARS

/-! ## Event Buffer / Pressure Tracker / Trigger Controller
(`ha_event_listener`, `_auto_trigger`) -/

def EVENT_BUFFER_MAX : Nat := 20000
def AUTO_ANALYSIS_EVENT_THRESHOLD : Nat := 8000
def AUTO_ANALYSIS_MIN_INTERVAL_SEC : ℚ := 60 * 60
def EVENTS_TRIGGER_CHARS : Nat := 4500
def EVENTS_TRIGGER_UNIQUE : Nat := 200
def AUTO_SIZE_MIN_INTERVAL_SEC : ℚ := 60 * 60

/-- The append-with-eviction of `ha_event_listener`:
`EVENT_BUFFER.append(data)` followed by
`del EVENT_BUFFER[: len(EVENT_BUFFER) - MAX]` when over capacity. -/
def append_evict {α : Type} (buf : List α) (e : α) (maxN : Nat) : List α :=
  let b := buf ++ [e]
  if b.length > maxN then b.drop (b.length - maxN) else b

/-- The buffer contents after appending `evs` in order to an empty buffer
(the state since the last snapshot-and-clear). -/
def bufferAfter {α : Type} (evs : List α) (maxN : Nat) : List α :=
  evs.foldl (fun b e => append_evict b e maxN) []

/-- One record of the live event stream, as stored by `ha_event_listener`
(`ts` dropped: it plays no role in buffering or pressure). -/
structure Event where
  entity_id : Option String
  fromV : Option String
  toV : Option String
deriving DecidableEq

/-- Model of `data.get("entity_id") or ""`. -/
def eidOf (e : Event) : String := e.entity_id.getD ""

/-- Model of `str(data.get("from") or "")` and `str(data.get("to") or "")`. -/
def strOrEmpty (o : Option String) : String := o.getD ""

/-- The estimate `approx_len = 32 + len(eid) + len(oldv) + len(newv)`. -/
def approxLen (e : Event) : Nat :=
  32 + (eidOf e).length + (strOrEmpty e.fromV).length + (strOrEmpty e.toV).length

/-- The shared mutable state of the ingestion/trigger pipeline, together
with the bookkeeping of scheduled (`asyncio.create_task`, not yet started)
and running (`set` done, `clear` pending) `_auto_trigger` tasks. -/
structure SysState where
  buffer : List Event
  eventBytes : Nat
  uniqueIds : List String
  inProgress : Bool
  lastAutoRunTs : Option ℚ
  pendingTasks : Nat
  runningTasks : Nat
deriving DecidableEq

/-- The initial module state: empty buffer, zero pressure, flag cleared,
`_last_auto_run_ts = None`. -/
def initState : SysState :=
  ⟨[], 0, [], false, none, 0, 0⟩

/-- Model of `EVENT_UNIQUE_IDS.add(eid)` guarded by `if eid:` (set insertion,
modelled on a duplicate-free list). -/
def addUnique (eid : String) (ids : List String) : List String :=
  if eid ≠ "" ∧ eid ∉ ids then ids ++ [eid] else ids

/-- One iteration of the event-processing body of `ha_event_listener` at
monotonic time `now`: append-with-eviction, pressure accounting, pressure
and cooldown evaluation, idle check, and — outside the lock but within the
same uninterrupted step of the single listener coroutine —
`asyncio.create_task(_auto_trigger ...)` when the trigger fires. -/
def listener_step (e : Event) (now : ℚ) (s : SysState) : SysState :=
  let buffer := append_evict s.buffer e EVENT_BUFFER_MAX
  let eventBytes := s.eventBytes + approxLen e
  let uniqueIds := addUnique (eidOf e) s.uniqueIds
  let countPressure := buffer.length ≥ AUTO_ANALYSIS_EVENT_THRESHOLD
  let sizePressure :=
    eventBytes ≥ EVENTS_TRIGGER_CHARS ∨ uniqueIds.length ≥ EVENTS_TRIGGER_UNIQUE
  let lastTs := s.lastAutoRunTs.getD 0
  let recentEnoughCount := now - lastTs ≥ AUTO_ANALYSIS_MIN_INTERVAL_SEC
  let recentEnoughSize := now - lastTs ≥ AUTO_SIZE_MIN_INTERVAL_SEC
  let idle := ¬ s.inProgress
  let fire := idle ∧ ((sizePressure ∧ recentEnoughSize) ∨ (countPressure ∧ recentEnoughCount))
  { s with
    buffer := buffer
    eventBytes := eventBytes
    uniqueIds := uniqueIds
    pendingTasks := if fire then s.pendingTasks + 1 else s.pendingTasks }

/-- The first action of a scheduled `_auto_trigger` task once the event
loop starts it: `_analysis_in_progress.set()`. -/
def task_start (s : SysState) : SysState :=
  { s with
    pendingTasks := s.pendingTasks - 1
    runningTasks := s.runningTasks + 1
    inProgress := true }

/-- The end of an `_auto_trigger` task: on success (`_perform_analysis`
returned) `_last_auto_run_ts` is set to the completion time; on failure
(the `except` branch) it is left untouched; the `finally` branch always
runs `_analysis_in_progress.clear()`. -/
def task_finish (success : Bool) (now : ℚ) (s : SysState) : SysState :=
  { s with
    runningTasks := s.runningTasks - 1
    inProgress := false
    lastAutoRunTs := if success then some now else s.lastAutoRunTs }

/-- A whole `_auto_trigger` execution: set the flag, run
`_perform_analysis` with the given outcome, and finish accordingly
(`try`/`except`/`finally`). -/
def auto_trigger (outcome : Except String Unit) (now : ℚ) (s : SysState) : SysState :=
  let s1 := task_start s
  match outcome with
  | .ok _ => task_finish true now s1
  | .error _ => task_finish false now s1

/-- An interleaving step of the pipeline: a listener iteration, the start
of a previously created task, or the completion of a running task. -/
inductive Step where
  | listen (e : Event) (now : ℚ)
  | start
  | finish (success : Bool) (now : ℚ)

/-- Apply one interleaving step. -/
def applyStep (s : SysState) : Step → SysState
  | .listen e now => listener_step e now s
  | .start => task_start s
  | .finish success now => task_finish success now s

/-- Run an arbitrary interleaving of pipeline steps from a state. -/
def runTrace (s : SysState) (tr : List Step) : SysState :=
  tr.foldl applyStep s

/-- Number of analysis runs in flight: created-but-unstarted plus running. -/
def inFlight (s : SysState) : Nat := s.pendingTasks + s.runningTasks

/-- A step of the restricted semantics in which every task created by a
listener iteration is started (its `set()` executed) before the next
pipeline step — the prompt-start scheduling the code relies on. -/
inductive RStep where
  | work (e : Event) (now : ℚ)
  | finish (success : Bool) (now : ℚ)

/-- Apply one restricted step: a listener iteration immediately followed
by the start of the task it created, if any. -/
def applyRStep (s : SysState) : RStep → SysState
  | .work e now =>
    let s' := listener_step e now s
    if s'.pendingTasks > s.pendingTasks then task_start s' else s'
  | .finish success now => task_finish success now s

/-- Run a trace of the restricted (prompt-start) semantics. -/
def runRTrace (s : SysState) (tr : List RStep) : SysState :=
  tr.foldl applyRStep s

/-! ## Series Compressor (`_compress_entity_series`) and helpers -/

def TRUE_STATES : List String := ["on", "open", "unlocked", "detected", "motion", "home", "present"]
def FALSE_STATES : List String := ["off", "closed", "locked", "clear", "no_motion", "away", "not_home"]

/-- Model of `str(x)` on an optional state value (`str(None) = "None"`). -/
def strOf (o : Option String) : String := o.getD "None"

/-- Python `str.lower` on `String`. -/
def pyLowerStr (s : String) : String := ⟨s.data.map Char.toLower⟩

/-- Python `str.strip()` on `String`. -/
def pyStripStr (s : String) : String := ⟨stripText s.data⟩

/-- Python `str.upper` on `String`. -/
def upperStr (s : String) : String := ⟨s.data.map Char.toUpper⟩

/-- Embedding of `_is_true_state`. -/
def is_true_state (s : String) : Option Bool :=
  let lc := pyLowerStr (pyStripStr s)
  if lc ∈ TRUE_STATES then some true
  else if lc ∈ FALSE_STATES then some false
  else none

/-- Embedding of `_domain_of`. -/
def domain_of (eid : String) : String :=
  if eid.data.contains '.' then ⟨eid.data.takeWhile (fun c => c ≠ '.')⟩ else ""

/-- Value of a digit string. -/
def digitsToNat (l : Text) : Nat := l.foldl (fun a c => a * 10 + (c.toNat - 48)) 0

/-- Unsigned decimal literal: digits with at most one point, at least one digit. -/
def parseDecimalCore (l : Text) : Option ℚ :=
  let ip := l.takeWhile Char.isDigit
  match l.dropWhile Char.isDigit with
  | [] => if ip = [] then none else some (digitsToNat ip : ℚ)
  | '.' :: fp =>
    if fp.all Char.isDigit ∧ (ip ≠ [] ∨ fp ≠ []) then
      some ((digitsToNat ip : ℚ) + (digitsToNat fp : ℚ) / (10 : ℚ) ^ fp.length)
    else none
  | _ => none

/-- Embedding of `_try_float`: `float(str(x).replace(",", "."))` returning `None` on failure.
Modelled on Python `float()` over plain decimal notation (optional surrounding
whitespace, optional sign, comma tolerated as decimal separator); scientific
notation, `inf`/`nan` and digit underscores are not modelled. -/
def try_float (o : Option String) : Option ℚ :=
  let l := stripText ((strOf o).data.map (fun c => if c = ',' then '.' else c))
  match l with
  | '-' :: r => (parseDecimalCore r).map (fun q => -q)
  | '+' :: r => parseDecimalCore r
  | r => parseDecimalCore r

/-- Round to the nearest integer, ties to even (the rounding of Python's
fixed-point float formatting, applied here to the exact rational). -/
def roundHalfEven (q : ℚ) : ℤ :=
  let f := ⌊q⌋
  let r := q - f
  if r < 1 / 2 then f
  else if 1 / 2 < r then f + 1
  else if f % 2 = 0 then f else f + 1

/-- Left-pad a numeral with zeros to a given width. -/
def padZeros (w : Nat) (s : String) : String :=
  ⟨List.replicate (w - s.data.length) '0' ++ s.data⟩

/-- Python `f"{q:.precf}"` on the exact rational. -/
def fmtFixed (prec : Nat) (q : ℚ) : String :=
  let n : Nat := (roundHalfEven (|q| * (10 : ℚ) ^ prec)).toNat
  let sign := if q < 0 then "-" else ""
  if prec = 0 then sign ++ Nat.repr n
  else sign ++ Nat.repr (n / 10 ^ prec) ++ "." ++ padZeros prec (Nat.repr (n % 10 ^ prec))

/-- Embedding of `_format_pct`. -/
def format_pct (p : ℚ) : String := fmtFixed 0 p ++ "%"

/-- Embedding of `_sec_hm`. -/
def sec_hm (sec : ℚ) : String :=
  let s : Nat := if sec ≤ 0 then 0 else (⌊sec⌋).toNat
  let h := s / 3600
  let m := (s % 3600) / 60
  if h ≥ 1 then Nat.repr h ++ "h " ++ Nat.repr m ++ "m" else Nat.repr m ++ "m"

/-- One history sample of an entity, as consumed by `_compress_entity_series`:
`entity_id`/`state` may be missing (`None`), `ts` is the timestamp parsed by
`_parse_iso_aware` in seconds, `unit` is `attributes.get("unit_of_measurement")`. -/
structure Row where
  entity_id : Option String
  state : Option String
  ts : ℚ
  unit : Option String
deriving DecidableEq

instance : Inhabited Row := ⟨⟨none, none, 0, none⟩⟩

/-- Stable insertion of `x` after all kept elements `y` with `le y x`. -/
def insertSorted {α : Type} (le : α → α → Bool) (x : α) : List α → List α
  | [] => [x]
  | y :: ys => if le y x then y :: insertSorted le x ys else x :: y :: ys

/-- Stable sort (insertion sort), the model of Python's stable `list.sort`. -/
def stableSort {α : Type} (le : α → α → Bool) (l : List α) : List α :=
  l.foldl (fun acc x => insertSorted le x acc) []

/-- Ascending-timestamp order used by `rows.sort(key=lambda x: x[0])`. -/
def rowLe (a b : Row) : Bool := decide (a.ts ≤ b.ts)

/-- The coalescing loop of `_compress_entity_series` with the current last
element carried explicitly: a sample within `jitter` of the carried last
replaces it, otherwise the carried last is emitted. -/
def coalesceAux (jitter : ℚ) (lastR : Row) : List Row → List Row
  | [] => [lastR]
  | r :: rest =>
    if r.ts - lastR.ts ≤ jitter then coalesceAux jitter r rest
    else lastR :: coalesceAux jitter r rest

/-- Coalesce successive samples within the jitter window (the later wins). -/
def coalesce (jitter : ℚ) : List Row → List Row
  | [] => []
  | r :: rest => coalesceAux jitter r rest

/-- Value of `_is_true_state` applied to a row's state string. -/
def tFlag (r : Row) : Option Bool := is_true_state (strOf r.state)

def binaryDomains : List String := ["binary_sensor", "lock", "cover", "switch"]

/-- Timestamp of the next sample, or `now` past the last one. -/
def nextTs (rest : List Row) (now : ℚ) : ℚ :=
  match rest with
  | [] => now
  | r :: _ => r.ts

/-- The `true_dur` accumulator of the binary path: each true-state sample
contributes the (clamped) duration up to the next sample or `now`. -/
def trueDurRows : List Row → ℚ → ℚ
  | [], _ => 0
  | r :: rest, now =>
    (if tFlag r = some true then max 0 (nextTs rest now - r.ts) else 0) + trueDurRows rest now

/-- The `longest_true` accumulator of the binary path. -/
def longestTrueRows : List Row → ℚ → ℚ
  | [], _ => 0
  | r :: rest, now =>
    max (if tFlag r = some true then max 0 (nextTs rest now - r.ts) else 0)
      (longestTrueRows rest now)

/-- The numeric values extracted from the coalesced rows: parseable floats
whose lowercased state is not an unavailability sentinel. -/
def valsOf (rows : List Row) : List ℚ :=
  rows.filterMap (fun r =>
    match try_float r.state with
    | some v =>
      if pyLowerStr (strOf r.state) ∈ (["unknown", "unavailable"] : List String) then none
      else some v
    | none => none)

/-- Python `min(list)` (callers guarantee nonemptiness). -/
def listMin : List ℚ → ℚ
  | [] => 0
  | x :: xs => xs.foldl min x

/-- Python `max(list)`. -/
def listMax : List ℚ → ℚ
  | [] => 0
  | x :: xs => xs.foldl max x

/-- Embedding of `statistics.mean`. -/
def listMean (l : List ℚ) : ℚ := l.sum / (l.length : ℚ)

/-- Jump threshold `max(1.0, 0.10 * rng)` with `rng = max(1e-9, v_max - v_min)`. -/
def jumpThreshold (vals : List ℚ) : ℚ :=
  max 1 ((1 / 10) * max (1 / 1000000000) (listMax vals - listMin vals))

/-- The jump-counting loop over successive numeric values. -/
def jumpCountAux (thr : ℚ) : ℚ → List ℚ → Nat
  | _, [] => 0
  | prev, v :: vs => (if |v - prev| ≥ thr then 1 else 0) + jumpCountAux thr v vs

/-- Number of meaningful jumps of a value list. -/
def jumpCount (vals : List ℚ) : Nat :=
  match vals with
  | [] => 0
  | v :: vs => jumpCountAux (jumpThreshold vals) v vs

/-- The domain-specific pretty state name of the binary path. -/
def prettyState (domain : String) (lastStateStr : String) : String :=
  if domain = "lock" then
    if is_true_state lastStateStr = some true then "UNLOCKED" else "LOCKED"
  else if domain = "cover" then
    if is_true_state lastStateStr = some true then "OPEN" else "CLOSED"
  else if domain = "binary_sensor" then
    if is_true_state lastStateStr = some true then "ON" else "OFF"
  else upperStr lastStateStr

/-- Samples per hour `len(rows) / max(1.0, elapsed_hours)` since the
first (coalesced) sample, the activity of the binary and fallback paths. -/
def samplesPerHour (rows : List Row) (now : ℚ) : ℚ :=
  (rows.length : ℚ) / max 1 ((now - rows.headI.ts) / 3600)

/-- The row list the compressor works on: samples sorted by timestamp
(stably) and then jitter-coalesced. -/
def sortedCoalesced (series : List Row) (jitter : ℚ) : List Row :=
  coalesce jitter (stableSort rowLe series)

/-- The numeric branch of `_compress_entity_series` (its locals `v_now`,
`v_min`, `v_max`, `v_mean`, `jumps`, `unit`, `delta_txt`, `now_txt`). -/
def numericSummary (eid : String) (lastRow : Row) (vals : List ℚ) : String × ℚ :=
  let lastStateStr := strOf lastRow.state
  let vMin := listMin vals
  let vMax := listMax vals
  let vMean := listMean vals
  let jumps := jumpCount vals
  let unit := lastRow.unit.getD ""
  let deltaTxt :=
    if containsSub "kwh".data (pyLowerStr unit).data ∨
        containsSub "wh".data (pyLowerStr unit).data ∨
        containsSub "energy".data eid.data then
      let delta := vals.getLastI - vals.headI
      if |delta| > 1 / 1000000 then ", Δ " ++ fmtFixed 2 delta ++ unit else ""
    else ""
  let nowTxt :=
    match try_float lastRow.state with
    | some v => fmtFixed 2 v ++ unit
    | none => lastStateStr
  let line := "- " ++ eid ++ ": now " ++ nowTxt ++ ", min " ++ fmtFixed 2 vMin ++ unit ++
    ", max " ++ fmtFixed 2 vMax ++ unit ++ ", avg " ++ fmtFixed 2 vMean ++ unit ++
    ", changes " ++ Nat.repr jumps ++ deltaTxt
  (line, max 1 (jumps : ℚ))

/-- Embedding of `_compress_entity_series`. -/
def compress_entity_series (series : List Row) (now : ℚ) (jitter : ℚ) : String × ℚ :=
  match series with
  | [] => ("", 0)
  | first :: _ =>
    let eid := first.entity_id.getD "unknown.unknown"
    let domain := domain_of eid
    let rows := sortedCoalesced series jitter
    let lastRow := rows.getLastI
    let lastStateStr := strOf lastRow.state
    let vals := valsOf rows
    if ((rows.map tFlag).any (fun tf => tf ≠ none)) ∧ domain ∈ binaryDomains then
      let trueDur := trueDurRows rows now
      let longest := longestTrueRows rows now
      let tot := now - rows.headI.ts
      let total := if tot = 0 then 1 else tot
      let pct := trueDur / total
      let line := "- " ++ eid ++ ": " ++ prettyState domain lastStateStr ++
        " (true " ++ format_pct pct ++ ", longest " ++ sec_hm longest ++
        ", last change " ++ sec_hm (now - lastRow.ts) ++ " ago)"
      (line, max 1 (samplesPerHour rows now))
    else if vals.length ≥ 2 then
      numericSummary eid lastRow vals
    else
      let line := "- " ++ eid ++ ": state=" ++ lastStateStr ++
        " (last change " ++ sec_hm (now - lastRow.ts) ++ " ago)"
      (line, max 1 (samplesPerHour rows now))

/-! ## History Ranker (`compress_history_for_prompt`) -/

def UNAVAIL_STATES : List String := ["unknown", "unavailable", "none"]

/-- A series every sample of which is an unavailability sentinel. -/
def seriesUnusable (s : List Row) : Bool :=
  s.all (fun r => pyLowerStr (strOf r.state) ∈ UNAVAIL_STATES)

/-- The body of the per-series loop of `compress_history_for_prompt`,
generalized over the per-entity compression `f`; `f s = none` models
`_compress_entity_series` raising, absorbed by the `try`/`except`.
(`hist` elements are lists by type, so the `isinstance` guard is subsumed.) -/
def historyEntryWith (f : List Row → Option (String × ℚ)) (s : List Row) :
    Option (String × ℚ) :=
  if s.isEmpty then none
  else if seriesUnusable s then none
  else
    match f s with
    | none => none
    | some (line, score) => if line = "" then none else some (line, score)

/-- The `(line, score)` pairs collected by the loop. -/
def historyEntriesWith (f : List Row → Option (String × ℚ)) (hist : List (List Row)) :
    List (String × ℚ) :=
  hist.filterMap (historyEntryWith f)

/-- Order of `sort(key=lambda x: x[1], reverse=True)`: descending score. -/
def scoreDesc (a b : String × ℚ) : Bool := decide (b.2 ≤ a.2)

/-- Embedding of `compress_history_for_prompt`, generalized over the per-entity step. -/
def compress_history_with (f : List Row → Option (String × ℚ))
    (hist : List (List Row)) (maxLines : Nat) : String :=
  if hist.isEmpty then "(no history available)"
  else
    let lines := historyEntriesWith f hist
    if lines.isEmpty then "(history had no usable states)"
    else
      let kept := (stableSort scoreDesc lines).take maxLines
      "HISTORY (compressed):\n" ++ String.intercalate "\n" (kept.map Prod.fst)

/-- The non-raising per-entity step: `_compress_entity_series` as used by
`compress_history_for_prompt`. -/
def realEntry (now jitter : ℚ) : List Row → Option (String × ℚ) :=
  fun s => some (compress_entity_series s now jitter)

/-- Embedding of `compress_history_for_prompt` with the real per-entity compressor. -/
def compress_history_for_prompt (hist : List (List Row)) (now : ℚ)
    (maxLines : Nat) (jitter : ℚ) : String :=
  compress_history_with (realEntry now jitter) hist maxLines

/-! ## Theorems -/

theorem append_evict_foldl {α : Type} (C : Nat) :
    ∀ (evs : List α) (buf : List α), buf.length ≤ C →
      evs.foldl (fun b e => append_evict b e C) buf =
        (buf ++ evs).drop ((buf.length + evs.length) - C) := by
  intro evs
  induction evs with
  | nil =>
    intro buf h
    simp [Nat.sub_eq_zero_of_le h]
  | cons e evs ih =>
    intro buf h
    simp only [List.foldl_cons]
    by_cases hc : buf.length + 1 ≤ C
    · have hb : (append_evict buf e C) = buf ++ [e] := by
        simp [append_evict]
        omega
      rw [hb, ih (buf ++ [e]) (by simpa using hc)]
      simp
      congr 1
      omega
    · have hb : (append_evict buf e C) = (buf ++ [e]).drop (buf.length + 1 - C) := by
        simp [append_evict]
        omega
      have hlen : (append_evict buf e C).length = C := by
        rw [hb]
        simp
        omega
      rw [ih (append_evict buf e C) (le_of_eq hlen), hlen, hb]
      have hle : buf.length + 1 - C ≤ (buf ++ [e]).length := by simp
      rw [← List.drop_append_of_le_length hle, List.drop_drop]
      congr 1
      · simp
        omega
      · simp

theorem bufferAfter_eq {α : Type} (evs : List α) (C : Nat) :
    bufferAfter evs C = evs.drop (evs.length - C) := by
  have h := append_evict_foldl C evs [] (by simp)
  simpa [bufferAfter] using h

/-- C2: once the number of events appended since the last clear exceeds the
capacity `C`, the buffer produced by the append-with-eviction loop of
`ha_event_listener` has length exactly `C` and retains precisely the most
recent `C` events in arrival order. -/
theorem eventBuffer_eviction {α : Type} (evs : List α) (C : Nat) (h : C < evs.length) :
    (bufferAfter evs C).length = C ∧
      bufferAfter evs C = evs.drop (evs.length - C) := by
  refine ⟨?_, bufferAfter_eq evs C⟩
  rw [bufferAfter_eq evs C]
  simp
  omega

/-- C2 witness: capacity 5, seven distinct events → the buffer holds
events 3–7 in order. -/
theorem eventBuffer_eviction_witness :
    5 < ([1, 2, 3, 4, 5, 6, 7] : List Nat).length ∧
      (bufferAfter ([1, 2, 3, 4, 5, 6, 7] : List Nat) 5).length = 5 ∧
      bufferAfter ([1, 2, 3, 4, 5, 6, 7] : List Nat) 5 = [3, 4, 5, 6, 7] := by
  have h := eventBuffer_eviction ([1, 2, 3, 4, 5, 6, 7] : List Nat) 5 (by decide)
  exact ⟨by decide, h.1, by decide⟩

/-- C4: every `_auto_trigger` execution clears the in-progress flag
(`finally`), advances `_last_auto_run_ts` to the completion time exactly
when `_perform_analysis` succeeded, and leaves it untouched when the run
raised — so the debounce clock is not advanced by a failure and a later
trigger evaluation never finds the flag still set after a run ended. -/
theorem autoTrigger_flag_and_debounce (outcome : Except String Unit) (now : ℚ) (s : SysState) :
    (auto_trigger outcome now s).inProgress = false ∧
      (auto_trigger outcome now s).lastAutoRunTs =
        (match outcome with
         | .ok _ => some now
         | .error _ => s.lastAutoRunTs) := by
  cases outcome <;> simp [auto_trigger, task_start, task_finish]

/-- One listener iteration that passes the size-pressure threshold in a
single event (an entity id of 4500 characters). -/
def bigEid : String := ⟨List.replicate 4500 'a'⟩

def bigEvent : Event := ⟨some bigEid, none, none⟩

/-- C3 counterexample: two consecutive trigger evaluations, both occurring
before any created `_auto_trigger` task has run its `set()`, both observe
`in_progress` unset and both schedule a run — after the two-step trace two
analysis runs are in flight, because the flag is set by the scheduled task
rather than atomically with the decision to schedule. -/
theorem listener_step_eventBytes (e : Event) (now : ℚ) (s : SysState) :
    (listener_step e now s).eventBytes = s.eventBytes + approxLen e := rfl

theorem listener_step_fields (e : Event) (now : ℚ) (s : SysState) :
    (listener_step e now s).inProgress = s.inProgress ∧
      (listener_step e now s).runningTasks = s.runningTasks ∧
      (listener_step e now s).lastAutoRunTs = s.lastAutoRunTs := by
  simp [listener_step]

theorem listener_step_fires (e : Event) (now : ℚ) (s : SysState)
    (hidle : s.inProgress = false)
    (hsize : s.eventBytes + approxLen e ≥ EVENTS_TRIGGER_CHARS)
    (hcool : now - s.lastAutoRunTs.getD 0 ≥ AUTO_SIZE_MIN_INTERVAL_SEC) :
    (listener_step e now s).pendingTasks = s.pendingTasks + 1 := by
  simp only [listener_step]
  rw [if_pos]
  exact ⟨by simp [hidle], Or.inl ⟨Or.inl hsize, hcool⟩⟩

theorem bigEid_length : bigEid.length = 4500 := by
  show (List.replicate 4500 'a').length = 4500
  exact List.length_replicate 4500 'a'

theorem approxLen_def (e : Event) :
    approxLen e = 32 + (eidOf e).length + (strOrEmpty e.fromV).length +
      (strOrEmpty e.toV).length := rfl

theorem approxLen_bigEvent : approxLen bigEvent = 4532 := by
  rw [approxLen_def, show eidOf bigEvent = bigEid from rfl, bigEid_length]
  rfl

theorem trigger_race_counterexample :
    initState.inProgress = false ∧
      (runTrace initState [Step.listen bigEvent 3600]).inProgress = false ∧
      (runTrace initState [Step.listen bigEvent 3600]).pendingTasks = 1 ∧
      inFlight (runTrace initState
        [Step.listen bigEvent 3600, Step.listen bigEvent 3600]) = 2 := by
  have hflds := listener_step_fields bigEvent 3600 initState
  have h1 : (listener_step bigEvent 3600 initState).pendingTasks = 1 := by
    rw [listener_step_fires bigEvent 3600 initState rfl
      (by rw [approxLen_bigEvent]; norm_num [initState, EVENTS_TRIGGER_CHARS])
      (by norm_num [initState, AUTO_SIZE_MIN_INTERVAL_SEC])]
    rfl
  have hflds2 := listener_step_fields bigEvent 3600 (listener_step bigEvent 3600 initState)
  have h2 : (listener_step bigEvent 3600 (listener_step bigEvent 3600 initState)).pendingTasks = 2 := by
    rw [listener_step_fires bigEvent 3600 (listener_step bigEvent 3600 initState)
      (by rw [hflds.1]; rfl)
      (by rw [listener_step_eventBytes, approxLen_bigEvent]; norm_num [EVENTS_TRIGGER_CHARS])
      (by rw [hflds.2.2]; norm_num [initState, AUTO_SIZE_MIN_INTERVAL_SEC]), h1]
  refine ⟨rfl, ?_, ?_, ?_⟩
  · simpa [runTrace] using hflds.1
  · simpa [runTrace] using h1
  · simp only [runTrace, List.foldl_cons, List.foldl_nil, applyStep, inFlight]
    rw [h2, hflds2.2.1, hflds.2.1]
    rfl

/-- The invariant maintained by the prompt-start semantics: no created task
is ever left unstarted, at most one run is in flight, and the flag tracks it. -/
def promptStartInv (s : SysState) : Prop :=
  s.pendingTasks = 0 ∧ s.runningTasks ≤ 1 ∧ (s.inProgress ↔ s.runningTasks = 1)

theorem listener_step_pending_cases (e : Event) (now : ℚ) (s : SysState) :
    (listener_step e now s).pendingTasks = s.pendingTasks ∨
      ((listener_step e now s).pendingTasks = s.pendingTasks + 1 ∧ s.inProgress = false) := by
  simp only [listener_step]
  split
  · next hfire => exact Or.inr ⟨rfl, by simpa using hfire.1⟩
  · exact Or.inl rfl

theorem applyRStep_inv (s : SysState) (st : RStep) (h : promptStartInv s) :
    promptStartInv (applyRStep s st) := by
  obtain ⟨hp, hr, hi⟩ := h
  cases st with
  | work e now =>
    simp only [applyRStep]
    rcases listener_step_pending_cases e now s with hpend | ⟨hpend, hidle⟩
    · rw [if_neg (by omega)]
      exact ⟨by rw [hpend]; exact hp,
        by rw [(listener_step_fields e now s).2.1]; exact hr,
        by rw [(listener_step_fields e now s).1, (listener_step_fields e now s).2.1]; exact hi⟩
    · rw [if_pos (by omega)]
      have hrun0 : s.runningTasks = 0 := by
        rcases Nat.lt_or_ge s.runningTasks 1 with h1 | h1
        · omega
        · exfalso
          have : s.inProgress := hi.mpr (by omega)
          simp [hidle] at this
      refine ⟨?_, ?_, ?_⟩ <;>
        simp [task_start, promptStartInv, hpend, hp, (listener_step_fields e now s).2.1, hrun0]
  | finish success now =>
    refine ⟨hp, ?_, ?_⟩
    · simp only [applyRStep, task_finish]
      omega
    · simp only [applyRStep, task_finish]
      simp
      omega

theorem runRTrace_inv (tr : List RStep) :
    ∀ s : SysState, promptStartInv s → promptStartInv (runRTrace s tr) := by
  induction tr with
  | nil => intro s h; exact h
  | cons st tr ih =>
    intro s h
    exact ih (applyRStep s st) (applyRStep_inv s st h)

/-- C3 amended: under the prompt-start scheduling the code relies on (each
created `_auto_trigger` task executes its `set()` before the next trigger
evaluation), every reachable state of the pipeline has at most one analysis
run in flight, because an evaluation that observes `in_progress` set never
schedules. Without that assumption the property fails (see the
counterexample): the flag is set by the scheduled task, not atomically
with the decision to schedule. -/
theorem single_run_in_flight (tr : List RStep) :
    inFlight (runRTrace initState tr) ≤ 1 := by
  have h := runRTrace_inv tr initState (by constructor <;> simp [initState])
  obtain ⟨hp, hr, _⟩ := h
  simp [inFlight, hp]
  exact hr

theorem insertSorted_perm {α : Type} (le : α → α → Bool) (x : α) (l : List α) :
    List.Perm (insertSorted le x l) (x :: l) := by
  induction l with
  | nil => exact List.Perm.refl _
  | cons y ys ih =>
    simp only [insertSorted]
    split
    · exact (ih.cons y).trans (List.Perm.swap x y ys)
    · exact List.Perm.refl _

theorem stableSort_foldl_perm {α : Type} (le : α → α → Bool) :
    ∀ (l acc : List α), List.Perm (l.foldl (fun acc x => insertSorted le x acc) acc) (acc ++ l) := by
  intro l
  induction l with
  | nil => intro acc; simp
  | cons x l ih =>
    intro acc
    simp only [List.foldl_cons]
    exact ((ih _).trans ((insertSorted_perm le x acc).append_right l)).trans List.perm_middle.symm

theorem stableSort_perm {α : Type} (le : α → α → Bool) (l : List α) :
    List.Perm (stableSort le l) l := by
  simpa using stableSort_foldl_perm le l []

theorem insertSorted_head? {α : Type} (le : α → α → Bool) (x : α) (l : List α) :
    (insertSorted le x l).head? = some x ∨ (insertSorted le x l).head? = l.head? := by
  cases l with
  | nil => exact Or.inl rfl
  | cons y ys =>
    simp only [insertSorted]
    split
    · exact Or.inr rfl
    · exact Or.inl rfl

theorem insertSorted_chain {α : Type} (le : α → α → Bool)
    (htot : ∀ a b, le a b = true ∨ le b a = true) (x : α) :
    ∀ l : List α, l.Chain' (fun a b => le a b = true) →
      (insertSorted le x l).Chain' (fun a b => le a b = true) := by
  intro l
  induction l with
  | nil => intro _; exact List.chain'_singleton x
  | cons y ys ih =>
    intro hch
    obtain ⟨hhead, hys⟩ := List.chain'_cons'.mp hch
    simp only [insertSorted]
    split
    · next hle =>
      refine List.chain'_cons'.mpr ⟨?_, ih hys⟩
      intro z hz
      rcases insertSorted_head? le x ys with hh | hh
      · rw [hh] at hz
        cases hz
        exact hle
      · rw [hh] at hz
        exact hhead z hz
    · next hle =>
      refine List.chain'_cons'.mpr ⟨?_, List.chain'_cons'.mpr ⟨hhead, hys⟩⟩
      intro z hz
      cases hz
      rcases htot x y with h | h
      · exact h
      · exact absurd h hle

theorem stableSort_chain {α : Type} (le : α → α → Bool)
    (htot : ∀ a b, le a b = true ∨ le b a = true) (l : List α) :
    (stableSort le l).Chain' (fun a b => le a b = true) := by
  suffices h : ∀ (l acc : List α), acc.Chain' (fun a b => le a b = true) →
      (l.foldl (fun acc x => insertSorted le x acc) acc).Chain' (fun a b => le a b = true) by
    exact h l [] List.chain'_nil
  intro l
  induction l with
  | nil => intro acc h; exact h
  | cons x l ih =>
    intro acc h
    exact ih (insertSorted le x acc) (insertSorted_chain le htot x acc h)

theorem rowLe_total : ∀ a b : Row, rowLe a b = true ∨ rowLe b a = true := by
  intro a b
  simp only [rowLe, decide_eq_true_eq]
  exact le_total a.ts b.ts

theorem coalesceAux_spec (jitter : ℚ) :
    ∀ (l : List Row) (lastR : Row),
      (lastR :: l).Chain' (fun a b => a.ts ≤ b.ts) →
      ∃ hd tl, coalesceAux jitter lastR l = hd :: tl ∧
        lastR.ts ≤ hd.ts ∧
        (hd :: tl).Chain' (fun a b => a.ts ≤ b.ts) ∧
        (hd :: tl).Chain' (fun a b => jitter < b.ts - a.ts) ∧
        ∀ x ∈ hd :: tl, x ∈ lastR :: l := by
  intro l
  induction l with
  | nil =>
    intro lastR _
    exact ⟨lastR, [], rfl, le_refl _, List.chain'_singleton _, List.chain'_singleton _, by simp⟩
  | cons r rest ih =>
    intro lastR h
    have hlr : lastR.ts ≤ r.ts := (List.chain'_cons.mp h).1
    have hrest : (r :: rest).Chain' (fun a b => a.ts ≤ b.ts) := (List.chain'_cons.mp h).2
    obtain ⟨hd, tl, heq, hts, hch, hgap, hmem⟩ := ih r hrest
    simp only [coalesceAux]
    split
    · refine ⟨hd, tl, heq, le_trans hlr hts, hch, hgap, fun x hx => ?_⟩
      exact List.mem_cons_of_mem lastR (hmem x hx)
    · next hnm =>
      refine ⟨lastR, hd :: tl, by rw [heq], le_refl _, ?_, ?_, ?_⟩
      · exact List.chain'_cons.mpr ⟨le_trans hlr hts, hch⟩
      · refine List.chain'_cons.mpr ⟨?_, hgap⟩
        have : jitter < r.ts - lastR.ts := by
          by_contra hc
          exact hnm (by linarith)
        linarith
      · intro x hx
        rcases List.mem_cons.mp hx with h1 | h2
        · exact h1 ▸ List.mem_cons_self lastR _
        · exact List.mem_cons_of_mem lastR (hmem x h2)

theorem coalesceAux_gap_id (jitter : ℚ) :
    ∀ (l : List Row) (lastR : Row),
      (lastR :: l).Chain' (fun a b => jitter < b.ts - a.ts) →
      coalesceAux jitter lastR l = lastR :: l := by
  intro l
  induction l with
  | nil => intro lastR _; rfl
  | cons r rest ih =>
    intro lastR h
    obtain ⟨hgap, hrest⟩ := List.chain'_cons.mp h
    simp only [coalesceAux]
    rw [if_neg (by linarith), ih r hrest]

/-- C8: the jitter-coalescing step of `_compress_entity_series` is the
identity on an already-coalesced sample list (successive timestamps more
than the jitter window apart), so re-coalescing with the same window
changes nothing. -/
theorem coalesce_idempotent (jitter : ℚ) (l : List Row)
    (h : l.Chain' (fun a b => jitter < b.ts - a.ts)) :
    coalesce jitter l = l ∧
      coalesce jitter (coalesce jitter l) = coalesce jitter l := by
  have h1 : coalesce jitter l = l := by
    cases l with
    | nil => rfl
    | cons r rest => exact coalesceAux_gap_id jitter rest r h
  exact ⟨h1, by rw [h1]; exact h1⟩

/-- C8 witness: two samples 100 s apart under a 90 s jitter window. -/
theorem coalesce_idempotent_witness :
    ([⟨some "light.a", some "on", 0, none⟩, ⟨some "light.a", some "off", 100, none⟩] :
        List Row).Chain' (fun a b => (90 : ℚ) < b.ts - a.ts) ∧
      coalesce 90 [(⟨some "light.a", some "on", 0, none⟩ : Row),
          ⟨some "light.a", some "off", 100, none⟩] =
        [⟨some "light.a", some "on", 0, none⟩, ⟨some "light.a", some "off", 100, none⟩] := by
  have hch : ([⟨some "light.a", some "on", 0, none⟩, ⟨some "light.a", some "off", 100, none⟩] :
      List Row).Chain' (fun a b => (90 : ℚ) < b.ts - a.ts) :=
    List.chain'_cons.mpr ⟨by norm_num, List.chain'_singleton _⟩
  have h := coalesce_idempotent 90
    [(⟨some "light.a", some "on", 0, none⟩ : Row), ⟨some "light.a", some "off", 100, none⟩] hch
  exact ⟨hch, h.1⟩

/-- C10 (implicit): the activity score of `_compress_entity_series` is at
least `1.0` for every nonempty series — each of the three paths applies a
`max(1.0, ·)` floor — and it is exactly `("", 0.0)` on the empty input, so
a zero activity score identifies an empty series. -/
theorem activity_floor (series : List Row) (now jitter : ℚ) (h : series ≠ []) :
    1 ≤ (compress_entity_series series now jitter).2 ∧
      compress_entity_series ([] : List Row) now jitter = ("", 0) := by
  refine ⟨?_, rfl⟩
  match series, h with
  | first :: rest, _ =>
    simp only [compress_entity_series]
    split
    · exact le_max_left 1 _
    · split
      · exact le_max_left 1 _
      · exact le_max_left 1 _

/-- C10 witness: a one-sample series scores exactly the floor `1`. -/
theorem activity_floor_witness :
    (([⟨some "light.a", some "on", 0, none⟩] : List Row) ≠ []) ∧
      1 ≤ (compress_entity_series [⟨some "light.a", some "on", 0, none⟩] 0 90).2 ∧
      compress_entity_series ([] : List Row) 0 90 = ("", 0) := by
  have h := activity_floor [⟨some "light.a", some "on", 0, none⟩] 0 90 (by decide)
  exact ⟨by decide, h.1, h.2⟩

theorem trueDurRows_nonneg (l : List Row) (now : ℚ) : 0 ≤ trueDurRows l now := by
  induction l with
  | nil => simp [trueDurRows]
  | cons r rest ih =>
    simp only [trueDurRows]
    have h1 : (0 : ℚ) ≤ if tFlag r = some true then max 0 (nextTs rest now - r.ts) else 0 := by
      split
      · exact le_max_left 0 _
      · exact le_refl 0
    linarith

theorem trueDurRows_le_of_chain (now : ℚ) :
    ∀ (tl : List Row) (hd : Row),
      (hd :: tl).Chain' (fun a b => a.ts ≤ b.ts) →
      (∀ x ∈ hd :: tl, x.ts ≤ now) →
      trueDurRows (hd :: tl) now ≤ now - hd.ts := by
  intro tl
  induction tl with
  | nil =>
    intro hd _ hle
    have h := hle hd (List.mem_cons_self hd [])
    have hexp : trueDurRows [hd] now =
        (if tFlag hd = some true then max 0 (now - hd.ts) else 0) + 0 := rfl
    rw [hexp]
    split
    · rw [max_eq_right (by linarith)]
      linarith
    · linarith
  | cons r rest ih =>
    intro hd hch hle
    obtain ⟨h1, h2⟩ := List.chain'_cons.mp hch
    have hrle : ∀ x ∈ r :: rest, x.ts ≤ now := fun x hx => hle x (List.mem_cons_of_mem hd hx)
    have hih := ih r h2 hrle
    have hexp : trueDurRows (hd :: r :: rest) now =
        (if tFlag hd = some true then max 0 (r.ts - hd.ts) else 0) +
          trueDurRows (r :: rest) now := rfl
    rw [hexp]
    have hterm : (if tFlag hd = some true then max 0 (r.ts - hd.ts) else 0) ≤ r.ts - hd.ts := by
      split
      · exact max_le (by linarith) (le_refl _)
      · linarith
    linarith

/-- C7 (amended): for a series all of whose sample timestamps are at most
`now` (samples observed in the past), the `true_dur` accumulated by the
binary path of `_compress_entity_series` over the sorted, coalesced rows
never exceeds the elapsed observation window `now −` (earliest sample
timestamp), and the reported true fraction `true_dur / total` is at most
100%. Without the past-samples assumption the bound fails (see the
counterexample). -/
theorem binary_true_duration_bound (series : List Row) (now jitter : ℚ)
    (hne : series ≠ []) (hpast : ∀ r ∈ series, r.ts ≤ now) :
    trueDurRows (sortedCoalesced series jitter) now ≤
        now - (stableSort rowLe series).headI.ts ∧
      trueDurRows (sortedCoalesced series jitter) now /
          (if now - (sortedCoalesced series jitter).headI.ts = 0 then 1
           else now - (sortedCoalesced series jitter).headI.ts) ≤ 1 := by
  obtain ⟨shd, stl, hsort⟩ : ∃ shd stl, stableSort rowLe series = shd :: stl := by
    cases hs : stableSort rowLe series with
    | nil =>
      exfalso
      have hlen := (stableSort_perm rowLe series).length_eq
      rw [hs] at hlen
      exact hne (List.length_eq_zero.mp hlen.symm)
    | cons a l => exact ⟨a, l, rfl⟩
  have hchain0 : (stableSort rowLe series).Chain' (fun a b => a.ts ≤ b.ts) :=
    (stableSort_chain rowLe rowLe_total series).imp
      (fun a b hab => of_decide_eq_true hab)
  rw [hsort] at hchain0
  obtain ⟨hd, tl, heq, hts, hch, hgap, hmem⟩ := coalesceAux_spec jitter stl shd hchain0
  have hrows : sortedCoalesced series jitter = hd :: tl := by
    simp only [sortedCoalesced, hsort, coalesce]
    exact heq
  have hmem' : ∀ x ∈ hd :: tl, x.ts ≤ now := by
    intro x hx
    have hx2 : x ∈ shd :: stl := hmem x hx
    rw [← hsort] at hx2
    exact hpast x ((stableSort_perm rowLe series).mem_iff.mp hx2)
  have hbound : trueDurRows (hd :: tl) now ≤ now - hd.ts :=
    trueDurRows_le_of_chain now tl hd hch hmem'
  constructor
  · rw [hrows, hsort]
    simp only [List.headI]
    linarith
  · rw [hrows]
    simp only [List.headI]
    have hnn : 0 ≤ trueDurRows (hd :: tl) now := trueDurRows_nonneg _ _
    have hhd_now : hd.ts ≤ now := hmem' hd (List.mem_cons_self hd tl)
    by_cases h0 : now - hd.ts = 0
    · rw [if_pos h0]
      have hD0 : trueDurRows (hd :: tl) now = 0 := le_antisymm (h0 ▸ hbound) hnn
      rw [hD0]
      norm_num
    · rw [if_neg h0]
      have hpos : 0 < now - hd.ts := lt_of_le_of_ne (by linarith) (Ne.symm h0)
      exact (div_le_one hpos).mpr hbound

/-- C7 witness: a door open for 10 of 70 minutes, observed in the past. -/
theorem binary_true_duration_bound_witness :
    (([⟨some "binary_sensor.door", some "on", 0, none⟩,
        ⟨some "binary_sensor.door", some "off", 600, none⟩] : List Row) ≠ []) ∧
      trueDurRows (sortedCoalesced
          [⟨some "binary_sensor.door", some "on", 0, none⟩,
           ⟨some "binary_sensor.door", some "off", 600, none⟩] 90) 4200 = 600 ∧
      trueDurRows (sortedCoalesced
          [⟨some "binary_sensor.door", some "on", 0, none⟩,
           ⟨some "binary_sensor.door", some "off", 600, none⟩] 90) 4200 ≤
        4200 - (stableSort rowLe
          [⟨some "binary_sensor.door", some "on", 0, none⟩,
           ⟨some "binary_sensor.door", some "off", 600, none⟩]).headI.ts := by
  have h := binary_true_duration_bound
    [⟨some "binary_sensor.door", some "on", 0, none⟩,
     ⟨some "binary_sensor.door", some "off", 600, none⟩] 4200 90
    (by decide) (by decide)
  exact ⟨by decide, by decide, h.1⟩

/-- A binary-like series containing a sample timestamped after `now`. -/
def futureSeries : List Row :=
  [⟨some "binary_sensor.door", some "on", 0, none⟩,
   ⟨some "binary_sensor.door", some "off", 100, none⟩]

/-- C7 counterexample: with a sample timestamped after `now` (`now = 50`,
sample at 100), the accumulated true-duration (100) exceeds the elapsed
observation window (50), and the reported true fraction is 200%. -/
theorem binary_true_duration_counterexample :
    (((sortedCoalesced futureSeries 90).map tFlag).any (fun tf => tf ≠ none)) = true ∧
      domain_of "binary_sensor.door" ∈ binaryDomains ∧
      trueDurRows (sortedCoalesced futureSeries 90) 50 = 100 ∧
      ¬ (trueDurRows (sortedCoalesced futureSeries 90) 50 ≤
          50 - (stableSort rowLe futureSeries).headI.ts) ∧
      ¬ (trueDurRows (sortedCoalesced futureSeries 90) 50 /
          (if (50 : ℚ) - (sortedCoalesced futureSeries 90).headI.ts = 0 then 1
           else 50 - (sortedCoalesced futureSeries 90).headI.ts) ≤ 1) := by
  decide

theorem foldl_min_spec : ∀ (l : List ℚ) (a : ℚ),
    (l.foldl min a = a ∨ l.foldl min a ∈ l) ∧ l.foldl min a ≤ a ∧
      ∀ v ∈ l, l.foldl min a ≤ v := by
  intro l
  induction l with
  | nil => intro a; exact ⟨Or.inl rfl, le_refl a, by simp⟩
  | cons x xs ih =>
    intro a
    obtain ⟨hmem, hle, hall⟩ := ih (min a x)
    simp only [List.foldl_cons]
    refine ⟨?_, le_trans hle (min_le_left a x), ?_⟩
    · rcases hmem with h | h
      · rcases min_choice a x with hm | hm
        · exact Or.inl (h.trans hm)
        · exact Or.inr (by rw [h, hm]; exact List.mem_cons_self x xs)
      · exact Or.inr (List.mem_cons_of_mem x h)
    · intro v hv
      rcases List.mem_cons.mp hv with h | h
      · rw [h]
        exact le_trans hle (min_le_right a x)
      · exact hall v h

theorem foldl_max_spec : ∀ (l : List ℚ) (a : ℚ),
    (l.foldl max a = a ∨ l.foldl max a ∈ l) ∧ a ≤ l.foldl max a ∧
      ∀ v ∈ l, v ≤ l.foldl max a := by
  intro l
  induction l with
  | nil => intro a; exact ⟨Or.inl rfl, le_refl a, by simp⟩
  | cons x xs ih =>
    intro a
    obtain ⟨hmem, hle, hall⟩ := ih (max a x)
    simp only [List.foldl_cons]
    refine ⟨?_, le_trans (le_max_left a x) hle, ?_⟩
    · rcases hmem with h | h
      · rcases max_choice a x with hm | hm
        · exact Or.inl (h.trans hm)
        · exact Or.inr (by rw [h, hm]; exact List.mem_cons_self x xs)
      · exact Or.inr (List.mem_cons_of_mem x h)
    · intro v hv
      rcases List.mem_cons.mp hv with h | h
      · rw [h]
        exact le_trans (le_max_right a x) hle
      · exact hall v h

theorem listMin_spec (vals : List ℚ) (h : vals ≠ []) :
    listMin vals ∈ vals ∧ ∀ v ∈ vals, listMin vals ≤ v := by
  match vals, h with
  | x :: xs, _ =>
    obtain ⟨hmem, hle, hall⟩ := foldl_min_spec xs x
    refine ⟨?_, ?_⟩
    · simp only [listMin]
      rcases hmem with h1 | h1
      · rw [h1]; exact List.mem_cons_self x xs
      · exact List.mem_cons_of_mem x h1
    · intro v hv
      rcases List.mem_cons.mp hv with h1 | h1
      · exact h1 ▸ hle
      · exact hall v h1

theorem listMax_spec (vals : List ℚ) (h : vals ≠ []) :
    listMax vals ∈ vals ∧ ∀ v ∈ vals, v ≤ listMax vals := by
  match vals, h with
  | x :: xs, _ =>
    obtain ⟨hmem, hle, hall⟩ := foldl_max_spec xs x
    refine ⟨?_, ?_⟩
    · simp only [listMax]
      rcases hmem with h1 | h1
      · rw [h1]; exact List.mem_cons_self x xs
      · exact List.mem_cons_of_mem x h1
    · intro v hv
      rcases List.mem_cons.mp hv with h1 | h1
      · exact h1 ▸ hle
      · exact hall v h1

theorem jumpCountAux_eq_countP (thr : ℚ) :
    ∀ (vs : List ℚ) (v : ℚ),
      jumpCountAux thr v vs =
        ((v :: vs).zip vs).countP (fun p => decide (thr ≤ |p.2 - p.1|)) := by
  intro vs
  induction vs with
  | nil => intro v; rfl
  | cons w ws ih =>
    intro v
    simp only [jumpCountAux, List.zip_cons_cons, List.countP_cons, ih w]
    simp only [ge_iff_le]
    split
    · next h => simp [h]; omega
    · next h => simp [h]

theorem jumpCount_eq_countP (vals : List ℚ) :
    jumpCount vals =
      (vals.zip vals.tail).countP (fun p => decide (jumpThreshold vals ≤ |p.2 - p.1|)) := by
  cases vals with
  | nil => rfl
  | cons v vs => exact jumpCountAux_eq_countP (jumpThreshold (v :: vs)) vs v

/-- C6 (amended): for a series that is not classified binary-like and whose
sorted, coalesced rows yield at least two numeric values, the compressor
takes the numeric path: the emitted line is the `numericSummary` built from
the true minimum, maximum and mean of the values and the jump count, a jump
is counted at a successive pair exactly when the absolute delta is at
least `max(1.0, 10% of the observed range)` (with the `1e-9` range floor),
and the activity score is the jump count floored at one
(`max(1.0, jumps)`), not the bare jump count. -/
theorem numeric_path_stats (first : Row) (rest : List Row) (now jitter : ℚ)
    (hnotbin : ¬ ((((sortedCoalesced (first :: rest) jitter).map tFlag).any
        fun tf => tf ≠ none) ∧
        domain_of (first.entity_id.getD "unknown.unknown") ∈ binaryDomains))
    (hvals : (valsOf (sortedCoalesced (first :: rest) jitter)).length ≥ 2) :
    compress_entity_series (first :: rest) now jitter =
        numericSummary (first.entity_id.getD "unknown.unknown")
          ((sortedCoalesced (first :: rest) jitter).getLastI)
          (valsOf (sortedCoalesced (first :: rest) jitter)) ∧
      (compress_entity_series (first :: rest) now jitter).2 =
        max 1 ((jumpCount (valsOf (sortedCoalesced (first :: rest) jitter)) : ℚ)) ∧
      (∀ vals : List ℚ, vals = valsOf (sortedCoalesced (first :: rest) jitter) →
        jumpCount vals =
            (vals.zip vals.tail).countP
              (fun p => decide (max 1 ((1 / 10) *
                max (1 / 1000000000) (listMax vals - listMin vals)) ≤ |p.2 - p.1|)) ∧
          listMin vals ∈ vals ∧ (∀ v ∈ vals, listMin vals ≤ v) ∧
          listMax vals ∈ vals ∧ (∀ v ∈ vals, v ≤ listMax vals) ∧
          listMean vals = vals.sum / (vals.length : ℚ)) := by
  have hpath : compress_entity_series (first :: rest) now jitter =
      numericSummary (first.entity_id.getD "unknown.unknown")
        ((sortedCoalesced (first :: rest) jitter).getLastI)
        (valsOf (sortedCoalesced (first :: rest) jitter)) := by
    simp only [compress_entity_series]
    rw [if_neg hnotbin, if_pos hvals]
  refine ⟨hpath, ?_, ?_⟩
  · rw [hpath]
    rfl
  · intro vals hv
    have hne : vals ≠ [] := by
      rw [hv]
      intro hc
      rw [hc] at hvals
      simp at hvals
    obtain ⟨hmin1, hmin2⟩ := listMin_spec vals hne
    obtain ⟨hmax1, hmax2⟩ := listMax_spec vals hne
    exact ⟨jumpCount_eq_countP vals, hmin1, hmin2, hmax1, hmax2, rfl⟩

/-- The `sensor.power` scenario series `[10, 12, 55, 58]` (unit W). -/
def powerSeries : List Row :=
  [⟨some "sensor.power", some "10", 0, some "W"⟩,
   ⟨some "sensor.power", some "12", 100, some "W"⟩,
   ⟨some "sensor.power", some "55", 200, some "W"⟩,
   ⟨some "sensor.power", some "58", 300, some "W"⟩]

/-- C6 witness: the scenario series has exactly one meaningful jump
(12→55 against threshold 4.8), min 10, max 58, and activity `max 1 1 = 1`;
the emitted line is the numeric summary line. -/
theorem numeric_path_stats_witness :
    valsOf (sortedCoalesced powerSeries 90) = [10, 12, 55, 58] ∧
      jumpCount (valsOf (sortedCoalesced powerSeries 90)) = 1 ∧
      listMin (valsOf (sortedCoalesced powerSeries 90)) = 10 ∧
      listMax (valsOf (sortedCoalesced powerSeries 90)) = 58 ∧
      (compress_entity_series powerSeries 1000 90).2 = 1 ∧
      (compress_entity_series powerSeries 1000 90).1 =
        "- sensor.power: now 58.00W, min 10.00W, max 58.00W, avg 33.75W, changes 1" := by
  have h := numeric_path_stats
    ⟨some "sensor.power", some "10", 0, some "W"⟩
    [⟨some "sensor.power", some "12", 100, some "W"⟩,
     ⟨some "sensor.power", some "55", 200, some "W"⟩,
     ⟨some "sensor.power", some "58", 300, some "W"⟩] 1000 90 (by decide) (by decide)
  refine ⟨by decide, by decide, by decide, by decide, ?_, by decide⟩
  have h2 := h.2.1
  rw [show powerSeries = (⟨some "sensor.power", some "10", 0, some "W"⟩ : Row) ::
    [⟨some "sensor.power", some "12", 100, some "W"⟩,
     ⟨some "sensor.power", some "55", 200, some "W"⟩,
     ⟨some "sensor.power", some "58", 300, some "W"⟩] from rfl, h2]
  decide

/-- A numeric series whose successive deltas never reach the threshold. -/
def flatSeries : List Row :=
  [⟨some "sensor.t", some "10", 0, none⟩, ⟨some "sensor.t", some "10", 200, none⟩]

/-- C6 counterexample: a flat two-sample numeric series has zero meaningful
transitions, yet the returned activity score is `max(1.0, 0) = 1.0`, not
the transition count `0` the claim states. -/
theorem numeric_activity_counterexample :
    (valsOf (sortedCoalesced flatSeries 90)).length ≥ 2 ∧
      jumpCount (valsOf (sortedCoalesced flatSeries 90)) = 0 ∧
      (compress_entity_series flatSeries 1000 90).2 = 1 ∧
      ¬ ((compress_entity_series flatSeries 1000 90).2 =
          (jumpCount (valsOf (sortedCoalesced flatSeries 90)) : ℚ)) := by
  decide

theorem appendL_ne (s t : String) (h : s ≠ "") : s ++ t ≠ "" := by
  intro hc
  apply h
  have hd := congrArg String.data hc
  rw [String.data_append] at hd
  have h1 : s.data = [] := (List.append_eq_nil.mp hd).1
  cases s with
  | mk d =>
    simp only at h1
    subst h1
    rfl

theorem compress_line_ne_empty (series : List Row) (now jitter : ℚ) (h : series ≠ []) :
    (compress_entity_series series now jitter).1 ≠ "" := by
  match series, h with
  | first :: rest, _ =>
    simp only [compress_entity_series, numericSummary]
    split
    · repeat apply appendL_ne
      decide
    · split
      · repeat apply appendL_ne
        decide
      · repeat apply appendL_ne
        decide

theorem scoreDesc_total : ∀ a b : String × ℚ, scoreDesc a b = true ∨ scoreDesc b a = true := by
  intro a b
  simp only [scoreDesc, decide_eq_true_eq]
  exact le_total b.2 a.2

/-- C5: a series whose every sample is an unavailability sentinel
contributes no line; an empty history yields the empty-history sentinel; a
nonempty history with no usable entries yields the no-usable-states
sentinel; a series contributes an entry exactly when it is nonempty and
not entirely unavailable; and otherwise the output is the fixed header over
the entries sorted by descending activity score, truncated to exactly
`min(number of usable series, max_lines)` lines. -/
theorem history_ranking (hist : List (List Row)) (now jitter : ℚ) (maxLines : Nat) :
    (∀ s ∈ hist, seriesUnusable s = true → historyEntryWith (realEntry now jitter) s = none) ∧
      (hist = [] →
        compress_history_for_prompt hist now maxLines jitter = "(no history available)") ∧
      (hist ≠ [] → historyEntriesWith (realEntry now jitter) hist = [] →
        compress_history_for_prompt hist now maxLines jitter = "(history had no usable states)") ∧
      (∀ s ∈ hist, historyEntryWith (realEntry now jitter) s ≠ none ↔
        (s ≠ [] ∧ seriesUnusable s = false)) ∧
      (historyEntriesWith (realEntry now jitter) hist ≠ [] →
        ((stableSort scoreDesc (historyEntriesWith (realEntry now jitter) hist)).take
            maxLines).length =
          min (historyEntriesWith (realEntry now jitter) hist).length maxLines ∧
        (stableSort scoreDesc (historyEntriesWith (realEntry now jitter) hist)).Chain'
          (fun a b => b.2 ≤ a.2) ∧
        compress_history_for_prompt hist now maxLines jitter =
          "HISTORY (compressed):\n" ++ String.intercalate "\n"
            (((stableSort scoreDesc (historyEntriesWith (realEntry now jitter) hist)).take
              maxLines).map Prod.fst)) := by
  refine ⟨?_, ?_, ?_, ?_, ?_⟩
  · intro s _ hun
    simp [historyEntryWith, hun]
  · intro h
    subst h
    rfl
  · intro hne hlines
    have h1 : hist.isEmpty = false := by
      cases hist
      · exact absurd rfl hne
      · rfl
    simp [compress_history_for_prompt, compress_history_with, h1, hlines]
  · intro s _
    constructor
    · intro hne
      simp only [historyEntryWith] at hne
      constructor
      · intro hc
        subst hc
        simp at hne
      · by_contra hc
        have hun : seriesUnusable s = true := by
          cases hu : seriesUnusable s
          · exact absurd hu hc
          · rfl
        simp [hun] at hne
    · rintro ⟨hne, hun⟩
      have hie : s.isEmpty = false := by
        cases s
        · exact absurd rfl hne
        · rfl
      simp only [historyEntryWith, hie, hun, realEntry]
      simp only [Bool.false_eq_true, if_false]
      have hl := compress_line_ne_empty s now jitter hne
      intro hc
      rcases hp : compress_entity_series s now jitter with ⟨line, score⟩
      rw [hp] at hc
      simp only at hc
      rw [hp] at hl
      simp only at hl
      rw [if_neg hl] at hc
      exact Option.some_ne_none _ hc
  · intro hentries
    have hne : hist ≠ [] := by
      intro hc
      subst hc
      exact hentries rfl
    have h1 : hist.isEmpty = false := by
      cases hist
      · exact absurd rfl hne
      · rfl
    have h2 : (historyEntriesWith (realEntry now jitter) hist).isEmpty = false := by
      cases h : historyEntriesWith (realEntry now jitter) hist
      · exact absurd h hentries
      · rfl
    refine ⟨?_, ?_, ?_⟩
    · rw [List.length_take, (stableSort_perm scoreDesc _).length_eq, Nat.min_comm]
    · exact (stableSort_chain scoreDesc scoreDesc_total _).imp
        (fun a b hab => of_decide_eq_true hab)
    · simp only [compress_history_for_prompt, compress_history_with, h1, h2]
      rfl

/-- A history input with one fully-unavailable series and one usable one. -/
def histC5 : List (List Row) :=
  [[⟨some "sensor.u", some "unavailable", 0, none⟩],
   [⟨some "light.a", some "on", 0, none⟩]]

/-- C5 witness: the unavailable-only series contributes nothing, the usable
series contributes its one line, and the output is the header plus that
line (min(1, 160) = 1 line). -/
theorem history_ranking_witness :
    historyEntriesWith (realEntry 0 90) histC5 ≠ [] ∧
      historyEntryWith (realEntry 0 90) [⟨some "sensor.u", some "unavailable", 0, none⟩] =
        none ∧
      ((stableSort scoreDesc (historyEntriesWith (realEntry 0 90) histC5)).take 160).length =
        min (historyEntriesWith (realEntry 0 90) histC5).length 160 ∧
      compress_history_for_prompt histC5 0 160 90 =
        "HISTORY (compressed):\n- light.a: state=on (last change 0m ago)" := by
  have h := history_ranking histC5 0 90 160
  refine ⟨by decide, ?_, (h.2.2.2.2 (by decide)).1, by decide⟩
  exact h.1 _ (by decide) (by decide)

theorem historyEntryWith_none_of_f (f : List Row → Option (String × ℚ)) (s : List Row)
    (hf : f s = none) : historyEntryWith f s = none := by
  simp only [historyEntryWith]
  split
  · rfl
  · split
    · rfl
    · rw [hf]

theorem filterMap_eraseIdx {α β : Type} (g : α → Option β) :
    ∀ (l : List α) (i : Nat) (hi : i < l.length), g (l.get ⟨i, hi⟩) = none →
      l.filterMap g = (l.eraseIdx i).filterMap g := by
  intro l
  induction l with
  | nil => intro i hi; simp at hi
  | cons x xs ih =>
    intro i hi hg
    cases i with
    | zero =>
      simp only [List.eraseIdx]
      simp only [List.filterMap_cons]
      have hx : g x = none := hg
      rw [hx]
    | succ n =>
      simp only [List.eraseIdx, List.filterMap_cons]
      have hn : n < xs.length := by simpa using hi
      have hgn : g (xs.get ⟨n, hn⟩) = none := hg
      cases hgx : g x with
      | none => exact ih n hn hgn
      | some b => rw [ih n hn hgn]

/-- C9: if the per-entity compression raises on one series (modelled as the
per-entity step returning `none`, absorbed by the `try`/`except`), that
series is omitted and the collected `(line, score)` entries — and, when any
series remain, the whole output — are exactly those produced with the
failing series absent from the input. -/
theorem per_entity_failure_isolated (f : List Row → Option (String × ℚ))
    (hist : List (List Row)) (i : Nat) (maxLines : Nat)
    (hi : i < hist.length) (hf : f (hist.get ⟨i, hi⟩) = none) :
    historyEntriesWith f hist = historyEntriesWith f (hist.eraseIdx i) ∧
      (hist.eraseIdx i ≠ [] →
        compress_history_with f hist maxLines =
          compress_history_with f (hist.eraseIdx i) maxLines) := by
  have hentry : historyEntryWith f (hist.get ⟨i, hi⟩) = none :=
    historyEntryWith_none_of_f f _ hf
  have hlines : historyEntriesWith f hist = historyEntriesWith f (hist.eraseIdx i) :=
    filterMap_eraseIdx _ hist i hi hentry
  refine ⟨hlines, fun hne => ?_⟩
  have h1 : hist.isEmpty = false := by
    cases hist
    · simp at hi
    · rfl
  have h2 : (hist.eraseIdx i).isEmpty = false := by
    cases h : hist.eraseIdx i
    · exact absurd h hne
    · rfl
  simp only [compress_history_with, h1, h2, hlines]

/-- A per-entity step that fails exactly on one-sample series. -/
def failF : List Row → Option (String × ℚ) :=
  fun s => if s.length = 1 then none else some ("- x", 1)

/-- A history whose first series makes `failF` fail. -/
def histC9 : List (List Row) :=
  [[⟨some "light.a", some "on", 0, none⟩],
   [⟨some "light.a", some "on", 0, none⟩, ⟨some "light.a", some "off", 200, none⟩]]

/-- C9 witness: with the first series failing, the entries and the full
output match those for the input with that series removed. -/
theorem per_entity_failure_isolated_witness :
    0 < histC9.length ∧
      failF (histC9.get ⟨0, by decide⟩) = none ∧
      historyEntriesWith failF histC9 = historyEntriesWith failF (histC9.eraseIdx 0) ∧
      historyEntriesWith failF histC9 = [("- x", 1)] ∧
      compress_history_with failF histC9 160 =
        compress_history_with failF (histC9.eraseIdx 0) 160 := by
  have h := per_entity_failure_isolated failF histC9 0 160 (by decide) (by decide)
  exact ⟨by decide, by decide, h.1, by decide, h.2 (by decide)⟩

theorem mem_splitlines_no_newline : ∀ (t : Text) (l : Text), l ∈ splitlines t → '\n' ∉ l := by
  intro t
  induction t with
  | nil => intro l hl; simp [splitlines] at hl
  | cons c cs ih =>
    intro l hl
    simp only [splitlines] at hl
    split at hl
    · rcases List.mem_cons.mp hl with h | h
      · subst h; simp
      · exact ih l h
    · next hc =>
      rcases hsp : splitlines cs with _ | ⟨l0, ls⟩ <;> rw [hsp] at hl <;> simp only at hl
      · rcases List.mem_cons.mp hl with h | h
        · subst h
          intro hm
          rcases List.mem_cons.mp hm with h1 | h1
          · exact hc h1.symm
          · simp at h1
        · simp at h
      · rcases List.mem_cons.mp hl with h | h
        · subst h
          intro hm
          rcases List.mem_cons.mp hm with h1 | h1
          · exact hc h1.symm
          · exact ih l0 (by rw [hsp]; exact List.mem_cons_self _ _) h1
        · exact ih l (by rw [hsp]; exact List.mem_cons_of_mem _ h)

theorem splitlines_of_no_newline : ∀ (t : Text), '\n' ∉ t → t ≠ [] → splitlines t = [t] := by
  intro t
  induction t with
  | nil => intro _ h; exact absurd rfl h
  | cons c cs ih =>
    intro hnn _
    have hc : ¬ c = '\n' := fun h => hnn (h ▸ List.mem_cons_self c cs)
    simp only [splitlines, if_neg hc]
    cases hcs : cs with
    | nil => rfl
    | cons d ds =>
      rw [← hcs, ih (fun hm => hnn (List.mem_cons_of_mem c hm)) (by simp [hcs])]

theorem splitlines_append_newline : ∀ (l t : Text), '\n' ∉ l →
    splitlines (l ++ '\n' :: t) = l :: splitlines t := by
  intro l
  induction l with
  | nil =>
    intro t _
    simp only [List.nil_append, splitlines, if_pos]
  | cons c cl ih =>
    intro t hnn
    have hc : ¬ c = '\n' := fun h => hnn (h ▸ List.mem_cons_self c cl)
    simp only [List.cons_append, splitlines, if_neg hc]
    rw [show splitlines (cl.append ('\n' :: t)) = cl :: splitlines t from
      ih t (fun hm => hnn (List.mem_cons_of_mem c hm))]

theorem splitlines_joinLines_concat : ∀ (K : List Text) (m : Text),
    (∀ l ∈ K, '\n' ∉ l) → '\n' ∉ m → m ≠ [] →
    splitlines (joinLines (K ++ [m])) = K ++ [m] := by
  intro K
  induction K with
  | nil =>
    intro m _ hm hne
    simp only [List.nil_append]
    exact splitlines_of_no_newline m hm hne
  | cons l K ih =>
    intro m hK hm hne
    have hjoin : joinLines ((l :: K) ++ [m]) = l ++ '\n' :: joinLines (K ++ [m]) := by
      cases K <;> rfl
    rw [hjoin, splitlines_append_newline l _ (hK l (List.mem_cons_self l K)),
      ih m (fun x hx => hK x (List.mem_cons_of_mem l hx)) hm hne]
    rfl

theorem length_joinLines : ∀ (L : List Text),
    (joinLines L).length = (L.map List.length).sum + (L.length - 1) := by
  intro L
  induction L with
  | nil => rfl
  | cons l L ih =>
    cases L with
    | nil => simp [joinLines]
    | cons l2 L2 =>
      have hstep : (joinLines (l :: l2 :: L2)).length =
          l.length + 1 + (joinLines (l2 :: L2)).length := by
        show (l ++ '\n' :: joinLines (l2 :: L2)).length = _
        simp [List.length_append]
        omega
      rw [hstep, ih]
      simp only [List.map_cons, List.sum_cons, List.length_cons]
      omega

def costLines (L : List Text) : Nat := (L.map (fun l => l.length + 1)).sum

theorem sum_map_length_succ : ∀ (K : List Text),
    (K.map (fun l => l.length + 1)).sum = (K.map List.length).sum + K.length := by
  intro K
  induction K with
  | nil => rfl
  | cons l K ih =>
    simp only [List.map_cons, List.sum_cons, List.length_cons, ih]
    omega

theorem clampLoop_cost (maxChars : Nat) :
    ∀ (ls : List Text) (used : Nat), used ≤ maxChars →
      used + costLines (clampLoop maxChars ls used) ≤ maxChars := by
  intro ls
  induction ls with
  | nil => intro used h; simpa [clampLoop, costLines] using h
  | cons l ls ih =>
    intro used h
    simp only [clampLoop]
    split
    · simpa [costLines] using h
    · next hle =>
      have h2 : used + (l.length + 1) ≤ maxChars := by omega
      have h3 := ih (used + (l.length + 1)) h2
      simp only [costLines, List.map_cons, List.sum_cons] at h3 ⊢
      omega

theorem clampLoop_subset (maxChars : Nat) :
    ∀ (ls : List Text) (used : Nat) (l : Text), l ∈ clampLoop maxChars ls used → l ∈ ls := by
  intro ls
  induction ls with
  | nil => intro used l h; simp [clampLoop] at h
  | cons x xs ih =>
    intro used l h
    simp only [clampLoop] at h
    split at h
    · simp at h
    · rcases List.mem_cons.mp h with h1 | h1
      · exact h1 ▸ List.mem_cons_self x xs
      · exact List.mem_cons_of_mem x (ih _ l h1)

theorem clamp_chars_length (t : Text) (m : Nat) :
    (clamp_chars t m).length ≤ m + TRUNC_MARKER.length := by
  have hmark : TRUNC_MARKER.length = 13 := by decide
  simp only [clamp_chars]
  split
  · next h => omega
  · rw [length_joinLines]
    have hcost := clampLoop_cost m (splitlines t) 0 (Nat.zero_le m)
    simp only [costLines] at hcost
    rw [sum_map_length_succ] at hcost
    simp only [List.map_append, List.sum_append, List.length_append]
    simp only [List.map_cons, List.map_nil, List.sum_cons, List.sum_nil, List.length_cons,
      List.length_nil]
    omega

theorem clamp_chars_lines (t : Text) (m : Nat) :
    ∀ l ∈ splitlines (clamp_chars t m), l ∈ splitlines t ∨ l = TRUNC_MARKER := by
  intro l hl
  simp only [clamp_chars] at hl
  split at hl
  · exact Or.inl hl
  · rw [splitlines_joinLines_concat _ _
      (fun x hx => mem_splitlines_no_newline t x (clampLoop_subset m _ 0 x hx))
      (by decide) (by decide)] at hl
    rcases List.mem_append.mp hl with h | h
    · exact Or.inl (clampLoop_subset m (splitlines t) 0 l h)
    · simp at h
      exact Or.inr h

/-- C1 (amended): every per-block clamp and the final whole-prompt clamp of
`compose_user_prompt` keep whole lines only — every line of the output is a
complete line of the input (for the composed prompt: of the assembled
pre-clamp prompt) or the fixed truncation marker — but the clamped length is
only guaranteed to be at most the ceiling **plus the 13-character
truncation marker**, because `clamp_chars` appends the marker after filling
the budget; the ceiling itself can be exceeded by up to 13 characters (see
the counterexample). -/
theorem prompt_budget_whole_lines (t : Text) (m : Nat) (lang : Text) (hours : Option Int)
    (topo state_block history_block events_block context_block : Text) :
    (clamp_chars t m).length ≤ m + TRUNC_MARKER.length ∧
      (∀ l ∈ splitlines (clamp_chars t m), l ∈ splitlines t ∨ l = TRUNC_MARKER) ∧
      (compose_user_prompt lang hours topo state_block history_block events_block
          context_block).length ≤ TOTAL_MAX_CHARS + TRUNC_MARKER.length ∧
      (∀ l ∈ splitlines (compose_user_prompt lang hours topo state_block history_block
          events_block context_block),
        l ∈ splitlines (promptFull lang topo state_block history_block events_block
          context_block) ∨ l = TRUNC_MARKER) := by
  exact ⟨clamp_chars_length t m, clamp_chars_lines t m,
    clamp_chars_length _ _, clamp_chars_lines _ _⟩

/-- C1 witness: a two-line text clamped at 3 keeps no partial line, emits
the marker, and stays within ceiling + marker length. -/
theorem prompt_budget_whole_lines_witness :
    (clamp_chars "ab\ncd".data 3).length ≤ 3 + TRUNC_MARKER.length ∧
      TRUNC_MARKER ∈ splitlines (clamp_chars "ab\ncd".data 3) ∧
      (TRUNC_MARKER ∈ splitlines "ab\ncd".data ∨ TRUNC_MARKER = TRUNC_MARKER) ∧
      (compose_user_prompt "en".data none [] [] [] [] []).length ≤
        TOTAL_MAX_CHARS + TRUNC_MARKER.length := by
  have h := prompt_budget_whole_lines "ab\ncd".data 3 "en".data none [] [] [] [] []
  exact ⟨h.1, by decide, h.2.1 TRUNC_MARKER (by decide), h.2.2.1⟩

/-- A context block of 1001 one-character lines (2001 characters). -/
def overText : Text := joinLines (List.replicate 1001 ['a'])

theorem clampLoop_replicate_a (m : Nat) : ∀ (n used : Nat),
    clampLoop m (List.replicate n ['a']) used = List.replicate (min n ((m - used) / 2)) ['a'] := by
  intro n
  induction n with
  | zero => intro used; simp [clampLoop]
  | succ k ih =>
    intro used
    rw [List.replicate_succ]
    have hl : (['a'] : Text).length + 1 = 2 := rfl
    simp only [clampLoop, hl]
    split
    · next h =>
      have h0 : (m - used) / 2 = 0 := by omega
      rw [h0]
      simp
    · next h =>
      rw [ih]
      have h3 : min (k + 1) ((m - used) / 2) = min k ((m - (used + 2)) / 2) + 1 := by
        omega
      rw [h3, List.replicate_succ]

theorem splitlines_overText : splitlines overText = List.replicate 1001 ['a'] := by
  have h : (List.replicate 1001 (['a'] : Text)) = List.replicate 1000 ['a'] ++ [['a']] :=
    List.replicate_succ' 1000 ['a'] ▸ rfl
  rw [overText, h]
  exact splitlines_joinLines_concat (List.replicate 1000 ['a']) ['a']
    (fun l hl => by rw [List.eq_of_mem_replicate hl]; decide) (by decide) (by decide)

theorem length_overText : overText.length = 2001 := by
  rw [overText, length_joinLines, List.map_replicate, List.sum_replicate,
    List.length_replicate]
  norm_num

/-- C1 counterexample: clamping a 2001-character context block at the
configured `CONTEXT_MAX_CHARS = 2000` produces 2013 characters — the 1000
whole lines that fit the budget plus the 13-character truncation marker —
so the clamped output exceeds its ceiling. -/
theorem prompt_budget_counterexample :
    (clamp_chars overText CONTEXT_MAX_CHARS).length = 2013 ∧
      ¬ ((clamp_chars overText CONTEXT_MAX_CHARS).length ≤ CONTEXT_MAX_CHARS) := by
  have hlen : overText.length = 2001 := length_overText
  have hgt : ¬ overText.length ≤ CONTEXT_MAX_CHARS := by
    rw [hlen]; decide
  have hloop : clampLoop CONTEXT_MAX_CHARS (splitlines overText) 0 =
      List.replicate 1000 ['a'] := by
    rw [splitlines_overText, clampLoop_replicate_a]
    norm_num [CONTEXT_MAX_CHARS]
  have hres : (clamp_chars overText CONTEXT_MAX_CHARS).length = 2013 := by
    simp only [clamp_chars, if_neg hgt]
    rw [hloop, length_joinLines, List.map_append, List.map_replicate, List.sum_append,
      List.sum_replicate, List.length_append, List.length_replicate]
    have h13 : TRUNC_MARKER.length = 13 := by decide
    simp only [List.map_cons, List.map_nil, List.sum_cons, List.sum_nil, List.length_cons,
      List.length_nil, h13, smul_eq_mul]
    norm_num
  exact ⟨hres, by rw [hres]; decide⟩

end HomeGPT
